import Mathlib

/-!
Verification of the rod graph database core (CRDT merge, lexical order,
engine get and put paths, and the node serialization layer).

The Rust source is embedded shallowly:

* `f64` values appearing as `Value::Float` payloads are modelled by `F64`,
  which is either NaN or a finite ordered number (represented by a rational;
  every non-NaN double is totally ordered and `partial_cmp` returns `None`
  exactly when one side is NaN, which is all the merge and comparison code
  observes).
* Field timestamps (`updated_at : f64`) are modelled by `Rat`; the merge
  code only compares and subtracts them, and the claims only concern
  ordinary (non-NaN) timestamps, on which doubles are totally ordered.
* Rust `String` is modelled as `List Char`, `Vec<u8>` as `List Nat` (with
  the `u8` range carried as a hypothesis where it matters), `u128` and
  `Ulid` as `Nat` (with the 128-bit range carried as a hypothesis where it
  matters).
* `HashMap` is modelled as an association list with pairwise distinct keys
  (the distinctness is carried as a hypothesis where a proof needs it).
* A Rust panic (`unimplemented!`, `unreachable!`, `.unwrap()` failure) is
  modelled by an `Option` result of `none`.
-/

namespace Rod

/-- Comparison on naturals, mirroring `Ord for u64`-style `x.cmp(y)`. -/
def natCmp (x y : Nat) : Ordering :=
  if x < y then .lt else if x = y then .eq else .gt

/-- Comparison on integers, mirroring `Ord for i64` (`x.cmp(y)` in `Int(x), Int(y)`). -/
def intCmp (x y : Int) : Ordering :=
  if x < y then .lt else if x = y then .eq else .gt

/-- Comparison on rationals, used for the ordered (non-NaN) part of `f64`. -/
def ratCmp (x y : Rat) : Ordering :=
  if x < y then .lt else if x = y then .eq else .gt

/-- Model of an `f64` as observed by the source: NaN, or an ordered number. -/
inductive F64 where
  | nan : F64
  | fin : Rat → F64
deriving DecidableEq, Repr

/-- Model of `f64::partial_cmp`: `None` exactly when one side is NaN. -/
def F64.partialCmp : F64 → F64 → Option Ordering
  | .nan, _ => Option.none
  | _, .nan => Option.none
  | .fin x, .fin y => some (ratCmp x y)

/-- Lexicographic comparison of lists given an element comparison, mirroring
`Ord for Vec<T>` / slice comparison in Rust (a strict prefix is less). -/
def listCmpWith (f : α → α → Ordering) : List α → List α → Ordering
  | [], [] => .eq
  | [], _ :: _ => .lt
  | _ :: _, [] => .gt
  | a :: as, b :: bs =>
    match f a b with
    | .eq => listCmpWith f as bs
    | o => o

/-- Comparison of characters by code point, mirroring byte comparison of
UTF-8 encoded Rust strings (UTF-8 byte order agrees with code point order). -/
def charCmp (a b : Char) : Ordering := natCmp a.toNat b.toNat

/-- Model of a Rust `String` (a sequence of characters). -/
abbrev Str := List Char

/-- Comparison mirroring `Ord for String` (lexicographic). -/
def strCmp (x y : Str) : Ordering := listCmpWith charCmp x y

/-- Model of `graph::Value`: the closed seven-variant value union. -/
inductive Value where
  | none : Value
  | bool : Bool → Value
  | int : Int → Value
  | float : F64 → Value
  | string : Str → Value
  | binary : List Nat → Value
  | node : Nat → Value
deriving DecidableEq, Repr

/-- Variant rank used by `lexical_cmp` when the discriminants differ
(`None=0, Bool=1, Int=2, Float=3, String=4, Binary=5, Node=6`). -/
def Value.rank : Value → Nat
  | .none => 0
  | .bool _ => 1
  | .int _ => 2
  | .float _ => 3
  | .string _ => 4
  | .binary _ => 5
  | .node _ => 6

/-- Model of `LexicalCmp for Value` from `crdt.rs` (textually identical in
`graph.rs`). Same-variant payloads are compared directly; note the swapped
Bool ordering and the `partial_cmp(..).unwrap_or(Less)` for floats. When the
discriminants differ the ranks are compared; equal ranks cannot occur there
(the source marks that branch `unreachable!`), so the fallback returns `.gt`. -/
def lexicalCmp : Value → Value → Ordering
  | .bool x, .bool y =>
    match x, y with
    | true, true => .eq
    | true, false => .lt
    | false, true => .gt
    | false, false => .eq
  | .int x, .int y => intCmp x y
  | .float x, .float y => (F64.partialCmp x y).getD .lt
  | .string x, .string y => strCmp x y
  | .binary x, .binary y => listCmpWith natCmp x y
  | .node x, .node y => natCmp x y
  | .none, .none => .eq
  | x, y => if x.rank < y.rank then .lt else .gt

/-- Whether a value contains the not-a-number float. -/
def Value.hasNaN : Value → Bool
  | .float .nan => true
  | _ => false

/-- Whether a value is a node reference. -/
def Value.isNodeRef : Value → Bool
  | .node _ => true
  | _ => false

/-- Model of `graph::Field`: a timestamped value. -/
structure Field where
  updated_at : Rat
  value : Value
deriving DecidableEq, Repr

/-- Threshold from `crdt.rs` / `graph.rs`: `FUTURE_UPDATE_THREASHOLD = 600.0`. -/
def FUTURE_UPDATE_THREASHOLD : Rat := 600

/-- Model of `Field::merge_with` from `crdt.rs` (the HAM merge). The system
clock read inside the function is passed as `currentTime`. The result is the
final state of `self`; `none` models a panic: the `unimplemented!` reached for
a near-future update, and the trailing `unreachable!`. -/
def Field.mergeWith (self : Field) (field : Field) (currentTime : Rat) : Option Field :=
  if field.updated_at = self.updated_at then
    match lexicalCmp self.value field.value with
    | .eq => some self
    | .lt => some self
    | .gt => some { self with value := field.value }
  else if field.updated_at < self.updated_at then
    some self
  else if field.updated_at > self.updated_at then
    if field.updated_at ≤ currentTime then
      some field
    else if field.updated_at - currentTime > FUTURE_UPDATE_THREASHOLD then
      some self
    else
      Option.none
  else
    Option.none

/-- Model of the second `Field::merge_with`, from `graph.rs`. After the equal
and older cases, it tests `field.updated_at > current_time` directly; an
incoming update that is newer than `self` but not in the future falls through
to the final `unreachable!` (modelled as `none`). -/
def Field.mergeWithGraph (self : Field) (field : Field) (currentTime : Rat) : Option Field :=
  if field.updated_at = self.updated_at then
    match lexicalCmp self.value field.value with
    | .eq => some self
    | .lt => some self
    | .gt => some { self with value := field.value }
  else if field.updated_at < self.updated_at then
    some self
  else if field.updated_at > currentTime then
    if field.updated_at - currentTime > FUTURE_UPDATE_THREASHOLD then
      some self
    else
      Option.none
  else
    Option.none

/-- Lookup of the first entry with the given key in an association list,
modelling `HashMap::get`. -/
def alookup [DecidableEq κ] (k : κ) : List (κ × α) → Option α
  | [] => Option.none
  | (k0, v0) :: rest => if k0 = k then some v0 else alookup k rest

/-- Replacement of the value of the first entry with the given key, modelling
mutation through `HashMap::get_mut`. -/
def aupdate [DecidableEq κ] (k : κ) (v : α) : List (κ × α) → List (κ × α)
  | [] => []
  | (k0, v0) :: rest => if k0 = k then (k0, v) :: rest else (k0, v0) :: aupdate k v rest

/-- Model of `HashMap::insert`: replace the entry if the key is present,
otherwise add a new entry. -/
def aput [DecidableEq κ] (k : κ) (v : α) (l : List (κ × α)) : List (κ × α) :=
  if (alookup k l).isSome then aupdate k v l else l ++ [(k, v)]

/-- Keys of an association list are pairwise distinct (the `HashMap`
invariant of the source, carried as a hypothesis where a proof needs it). -/
abbrev keysNodup (l : List (κ × α)) : Prop := (l.map Prod.fst).Nodup

/-- Model of `graph::Node`: an id and a map from field names to fields. The
`HashMap` is modelled as an association list; iteration order in
`merge_into` is the list order. -/
structure Node where
  id : Nat
  fields : List (Str × Field)
deriving DecidableEq, Repr

/-- Body of the `merge_into` loop from `crdt.rs`: for each incoming entry,
merge into the existing field of the same name, or insert the entry. A panic
inside `Field::merge_with` aborts the whole merge (`none`). -/
def mergeFields (now : Rat) : List (Str × Field) → List (Str × Field) → Option (List (Str × Field))
  | [], target => some target
  | (key, fieldValue) :: rest, target =>
    match alookup key target with
    | some otherFieldValue =>
      match otherFieldValue.mergeWith fieldValue now with
      | some merged => mergeFields now rest (aupdate key merged target)
      | Option.none => Option.none
    | Option.none => mergeFields now rest (target ++ [(key, fieldValue)])

/-- Model of `Node::merge_into` from `crdt.rs`: merges `self` into
`otherNode`. The system clock reads inside the field merges are passed as
`now`. -/
def Node.mergeInto (self : Node) (otherNode : Node) (now : Rat) : Option Node :=
  (mergeFields now self.fields otherNode.fields).map fun fs => { otherNode with fields := fs }

/-- Model of `Node::new` / `Node::default`: a fresh empty node. The id
produced by `Ulid::new()` is passed in as `fresh`. -/
def newNode (fresh : Nat) : Node := { id := fresh, fields := [] }

/-- Model of the store state seen through the `Store` trait used by
`engine.rs`: a node table keyed by id and a name table mapping string keys to
an optional id. -/
structure StoreState where
  nodes : List (Nat × Node)
  names : List (Str × Option Nat)
deriving DecidableEq, Repr

/-- Store with no nodes and no name mappings. -/
def emptyStore : StoreState := { nodes := [], names := [] }

/-- Model of `Store::put_node`: persist the node under its id. -/
def putNode (n : Node) (st : StoreState) : StoreState :=
  { st with nodes := aput n.id n st.nodes }

/-- Model of `Store::get_node`. -/
def getNode (id : Nat) (st : StoreState) : Option Node := alookup id st.nodes

/-- Model of `Store::get_id`: the outer `Option` is absence of any mapping,
the inner one a mapping to nothing. -/
def getId (key : Str) (st : StoreState) : Option (Option Nat) := alookup key st.names

/-- Model of `NodeProxy::new` from `engine.rs`: persists the wrapped node via
`put_node` and returns the proxy (represented by its node snapshot) together
with the updated store. -/
def nodeProxyNew (st : StoreState) (n : Node) : Node × StoreState :=
  (n, putNode n st)

/-- Model of `Rod::get` on a string key from `engine.rs`: resolve the key
through the name table (`get_id(..).flatten()`), then load the node or
synthesize a fresh empty one (`Node::new`, with its generated id passed in as
`fresh`), in every case through `NodeProxy::new`. -/
def rodGet (st : StoreState) (key : Str) (fresh : Nat) : Node × StoreState :=
  match (getId key st).bind id with
  | Option.none => nodeProxyNew st (newNode fresh)
  | some nodeId =>
    match getNode nodeId st with
    | some node => nodeProxyNew st node
    | Option.none => nodeProxyNew st (newNode fresh)

/-- Model of `ValueRef::follow` from `engine.rs`: if the value is a node
reference, load its target, otherwise (or when the target is missing) return
a handle to a fresh empty node; every branch goes through `NodeProxy::new`. -/
def followValue (st : StoreState) (v : Value) (fresh : Nat) : Node × StoreState :=
  match v with
  | .node refId =>
    match getNode refId st with
    | some node => nodeProxyNew st node
    | Option.none => nodeProxyNew st (newNode fresh)
  | _ => nodeProxyNew st (newNode fresh)

/-- Marker token `$base64$` that prefixes binary data rendered as a JSON
string. -/
def base64Marker : Str := ['$', 'b', 'a', 's', 'e', '6', '4', '$']

/-- Strip the `$base64$` marker, modelling the
`starts_with` / `strip_prefix` pair in the deserialization visitor. -/
def stripBase64Marker : Str → Option Str
  | '$' :: 'b' :: 'a' :: 's' :: 'e' :: '6' :: '4' :: '$' :: rest => some rest
  | _ => Option.none

/-- C1: Field merge follows the HAM steps: with equal timestamps the values
are compared as `existing.cmp(incoming)`, where Equal or Less keeps the
existing field and Greater adopts the incoming value with the timestamp
unchanged; a strictly older incoming field is discarded; a strictly newer
incoming field with timestamp at most `now` is adopted wholesale. -/
theorem c1_field_merge_ham_steps (e i : Field) (now : Rat) :
    (i.updated_at = e.updated_at →
      (lexicalCmp e.value i.value ≠ .gt → e.mergeWith i now = some e) ∧
      (lexicalCmp e.value i.value = .gt →
        e.mergeWith i now = some { updated_at := e.updated_at, value := i.value })) ∧
    (i.updated_at < e.updated_at → e.mergeWith i now = some e) ∧
    (e.updated_at < i.updated_at → i.updated_at ≤ now → e.mergeWith i now = some i) := by
  refine ⟨fun h => ⟨fun hc => ?_, fun hc => ?_⟩, fun h => ?_, fun h1 h2 => ?_⟩
  · unfold Field.mergeWith
    rw [if_pos h]
    cases hcc : lexicalCmp e.value i.value
    · rfl
    · rfl
    · exact absurd hcc hc
  · unfold Field.mergeWith
    rw [if_pos h, hc]
  · have hne : i.updated_at ≠ e.updated_at := ne_of_lt h
    unfold Field.mergeWith
    rw [if_neg hne, if_pos h]
  · have hne : i.updated_at ≠ e.updated_at := ne_of_gt h1
    have hnl : ¬ i.updated_at < e.updated_at := not_lt_of_gt h1
    unfold Field.mergeWith
    rw [if_neg hne, if_neg hnl, if_pos h1, if_pos h2]

/-- Witness for C1: the three HAM steps evaluated at concrete fields. -/
theorem c1_field_merge_ham_steps_witness :
    Field.mergeWith ⟨0, .int 3⟩ ⟨0, .int 5⟩ 0 = some ⟨0, .int 3⟩ ∧
    Field.mergeWith ⟨0, .int 5⟩ ⟨0, .int 3⟩ 0 = some ⟨0, .int 3⟩ ∧
    Field.mergeWith ⟨10, .int 1⟩ ⟨5, .int 2⟩ 0 = some ⟨10, .int 1⟩ ∧
    Field.mergeWith ⟨5, .int 1⟩ ⟨8, .int 2⟩ 9 = some ⟨8, .int 2⟩ :=
  ⟨((c1_field_merge_ham_steps ⟨0, .int 3⟩ ⟨0, .int 5⟩ 0).1 (by decide)).1 (by decide),
   ((c1_field_merge_ham_steps ⟨0, .int 5⟩ ⟨0, .int 3⟩ 0).1 (by decide)).2 (by decide),
   (c1_field_merge_ham_steps ⟨10, .int 1⟩ ⟨5, .int 2⟩ 0).2.1 (by decide),
   (c1_field_merge_ham_steps ⟨5, .int 1⟩ ⟨8, .int 2⟩ 9).2.2 (by decide) (by decide)⟩

/-- C3 counterexample: comparing `Float(0.0)` against `Float(NaN)` yields
Less, not Greater as the claim states; `unwrap_or(Less)` applies whenever
either side is NaN. -/
theorem c3_counterexample :
    lexicalCmp (.float (.fin 0)) (.float .nan) = .lt ∧
    lexicalCmp (.float (.fin 0)) (.float .nan) ≠ .gt := by
  decide

/-- C3 amended: a float comparison involving NaN yields Less regardless of
which side the NaN is on, so NaN sorts as the lowest value only when it is
the left operand; the comparison is not antisymmetric on NaN. -/
theorem c3_nan_sorts_lt (x : F64) :
    lexicalCmp (.float .nan) (.float x) = .lt ∧
    lexicalCmp (.float x) (.float .nan) = .lt := by
  cases x <;> exact ⟨rfl, rfl⟩

/-- C4 counterexample: an incoming field timestamped more than 600 seconds
ahead of `now` is not always discarded: when its timestamp equals the
existing timestamp, the equal-timestamp branch runs first and can adopt the
incoming value. -/
theorem c4_counterexample :
    (700 : Rat) - 0 > FUTURE_UPDATE_THREASHOLD ∧
    Field.mergeWith ⟨700, .int 5⟩ ⟨700, .int 3⟩ 0 ≠ some ⟨700, .int 5⟩ := by
  refine ⟨by norm_num [FUTURE_UPDATE_THREASHOLD], by decide⟩

/-- C4 amended: an incoming field strictly newer than the existing one and
more than 600 seconds ahead of `now` is discarded; one strictly newer and
timestamped exactly at `now` is adopted wholesale; at exactly 600 seconds
ahead the strict greater-than comparison routes to the deferred
(unimplemented, panicking) path rather than the discard path. -/
theorem c4_future_threshold (e i : Field) (now : Rat) :
    (e.updated_at < i.updated_at → i.updated_at - now > FUTURE_UPDATE_THREASHOLD →
      e.mergeWith i now = some e) ∧
    (e.updated_at < i.updated_at → i.updated_at = now → e.mergeWith i now = some i) ∧
    (e.updated_at < i.updated_at → i.updated_at = now + FUTURE_UPDATE_THREASHOLD →
      e.mergeWith i now = Option.none) := by
  have thr : FUTURE_UPDATE_THREASHOLD = 600 := rfl
  refine ⟨fun h1 h2 => ?_, fun h1 h2 => ?_, fun h1 h2 => ?_⟩
  · have hne : i.updated_at ≠ e.updated_at := ne_of_gt h1
    have hnl : ¬ i.updated_at < e.updated_at := not_lt_of_gt h1
    have hnow : ¬ i.updated_at ≤ now := by rw [thr] at h2; intro hle; linarith
    unfold Field.mergeWith
    rw [if_neg hne, if_neg hnl, if_pos h1, if_neg hnow, if_pos h2]
  · have hne : i.updated_at ≠ e.updated_at := ne_of_gt h1
    have hnl : ¬ i.updated_at < e.updated_at := not_lt_of_gt h1
    have hnow : i.updated_at ≤ now := le_of_eq h2
    unfold Field.mergeWith
    rw [if_neg hne, if_neg hnl, if_pos h1, if_pos hnow]
  · have hne : i.updated_at ≠ e.updated_at := ne_of_gt h1
    have hnl : ¬ i.updated_at < e.updated_at := not_lt_of_gt h1
    have hnow : ¬ i.updated_at ≤ now := by rw [thr] at h2; intro hle; rw [h2] at hle; linarith
    have hth : ¬ i.updated_at - now > FUTURE_UPDATE_THREASHOLD := by
      rw [thr] at h2 ⊢; rw [h2]; intro hgt; linarith
    unfold Field.mergeWith
    rw [if_neg hne, if_neg hnl, if_pos h1, if_neg hnow, if_neg hth]

/-- Witness for C4 amended: the three threshold behaviors at concrete
fields (existing at time 0; incoming at 700, at 50, and at 650; now 50). -/
theorem c4_future_threshold_witness :
    Field.mergeWith ⟨0, .int 1⟩ ⟨700, .int 2⟩ 50 = some ⟨0, .int 1⟩ ∧
    Field.mergeWith ⟨0, .int 1⟩ ⟨50, .int 2⟩ 50 = some ⟨50, .int 2⟩ ∧
    Field.mergeWith ⟨0, .int 1⟩ ⟨650, .int 2⟩ 50 = Option.none :=
  ⟨(c4_future_threshold ⟨0, .int 1⟩ ⟨700, .int 2⟩ 50).1 (by decide) (by norm_num [FUTURE_UPDATE_THREASHOLD]),
   (c4_future_threshold ⟨0, .int 1⟩ ⟨50, .int 2⟩ 50).2.1 (by decide) (by decide),
   (c4_future_threshold ⟨0, .int 1⟩ ⟨650, .int 2⟩ 50).2.2 (by decide) (by norm_num [FUTURE_UPDATE_THREASHOLD])⟩

/-- Swapping the arguments of an order-based comparison swaps the result. -/
theorem ltCmp_swap [LinearOrder α] (x y : α) :
    (if y < x then Ordering.lt else if y = x then Ordering.eq else Ordering.gt)
      = (if x < y then Ordering.lt else if x = y then Ordering.eq else Ordering.gt).swap := by
  rcases lt_trichotomy x y with h | h | h
  · rw [if_neg (not_lt_of_gt h), if_neg (ne_of_gt h), if_pos h]
    rfl
  · subst h
    rw [if_neg (lt_irrefl x), if_pos rfl]
    rfl
  · rw [if_pos h, if_neg (not_lt_of_gt h), if_neg (ne_of_gt h)]
    rfl

/-- An order-based comparison returns Equal only on equal arguments. -/
theorem ltCmp_eq_imp [LinearOrder α] {x y : α}
    (h : (if x < y then Ordering.lt else if x = y then Ordering.eq else Ordering.gt)
      = Ordering.eq) : x = y := by
  by_cases h1 : x < y
  · simp [h1] at h
  · by_cases h2 : x = y
    · exact h2
    · simp [h1, h2] at h

theorem natCmp_swap (x y : Nat) : natCmp y x = (natCmp x y).swap := ltCmp_swap x y

theorem intCmp_swap (x y : Int) : intCmp y x = (intCmp x y).swap := ltCmp_swap x y

theorem ratCmp_swap (x y : Rat) : ratCmp y x = (ratCmp x y).swap := ltCmp_swap x y

theorem charCmp_swap (a b : Char) : charCmp b a = (charCmp a b).swap :=
  ltCmp_swap a.toNat b.toNat

theorem natCmp_eq_imp {x y : Nat} (h : natCmp x y = .eq) : x = y := ltCmp_eq_imp h

theorem intCmp_eq_imp {x y : Int} (h : intCmp x y = .eq) : x = y := ltCmp_eq_imp h

theorem ratCmp_eq_imp {x y : Rat} (h : ratCmp x y = .eq) : x = y := ltCmp_eq_imp h

theorem charCmp_eq_imp {a b : Char} (h : charCmp a b = .eq) : a = b :=
  Char.eq_of_val_eq (UInt32.ext (ltCmp_eq_imp h))

/-- Swapping the sides of a lexicographic list comparison swaps the result. -/
theorem listCmpWith_swap (f : α → α → Ordering) (hf : ∀ a b, f b a = (f a b).swap) :
    ∀ x y, listCmpWith f y x = (listCmpWith f x y).swap
  | [], [] => rfl
  | [], _ :: _ => rfl
  | _ :: _, [] => rfl
  | a :: as, b :: bs => by
    simp only [listCmpWith, hf a b]
    cases hab : f a b <;> simp [Ordering.swap, listCmpWith_swap f hf as bs]

/-- A lexicographic list comparison returns Equal only on equal lists. -/
theorem listCmpWith_eq_imp (f : α → α → Ordering) (hf : ∀ a b, f a b = .eq → a = b) :
    ∀ x y, listCmpWith f x y = .eq → x = y
  | [], [], _ => rfl
  | [], _ :: _, h => by simp [listCmpWith] at h
  | _ :: _, [], h => by simp [listCmpWith] at h
  | a :: as, b :: bs, h => by
    cases hab : f a b <;> simp only [listCmpWith, hab] at h
    · cases h
    · rw [hf a b hab, listCmpWith_eq_imp f hf as bs h]
    · cases h

/-- The lexical order is swap-antisymmetric on NaN-free values (including
the reversed Bool case, which is swap-antisymmetric as well). -/
theorem lexicalCmp_swap (x y : Value) (hx : x.hasNaN = false) (hy : y.hasNaN = false) :
    lexicalCmp y x = (lexicalCmp x y).swap := by
  cases x <;> cases y <;> try rfl
  · rename_i a b
    cases a <;> cases b <;> rfl
  · rename_i a b
    exact intCmp_swap a b
  · rename_i a b
    cases a
    · simp [Value.hasNaN] at hx
    · cases b
      · simp [Value.hasNaN] at hy
      · rename_i qa qb
        exact ratCmp_swap qa qb
  · rename_i a b
    exact listCmpWith_swap charCmp charCmp_swap a b
  · rename_i a b
    exact listCmpWith_swap natCmp natCmp_swap a b
  · rename_i a b
    exact natCmp_swap a b

/-- The lexical order returns Equal only on equal NaN-free values. -/
theorem lexicalCmp_eq_imp (x y : Value) (hx : x.hasNaN = false) (hy : y.hasNaN = false)
    (h : lexicalCmp x y = .eq) : x = y := by
  cases x <;> cases y <;> simp_all [lexicalCmp, Value.rank]
  · rename_i a b
    cases a <;> cases b <;> simp_all
  · rename_i a b
    exact intCmp_eq_imp h
  · rename_i a b
    cases a
    · simp [Value.hasNaN] at hx
    · cases b
      · simp [Value.hasNaN] at hy
      · rename_i qa qb
        exact congrArg F64.fin (ratCmp_eq_imp h)
  · rename_i a b
    exact listCmpWith_eq_imp charCmp (fun c d => charCmp_eq_imp) a b h
  · rename_i a b
    exact listCmpWith_eq_imp natCmp (fun c d => natCmp_eq_imp) a b h
  · rename_i a b
    exact natCmp_eq_imp h

/-- With equal timestamps the merge keeps the timestamp and resolves the
value by the lexical comparison. -/
theorem mergeWith_eq_ts (t now : Rat) (x y : Value) :
    Field.mergeWith ⟨t, x⟩ ⟨t, y⟩ now =
      some ⟨t, match lexicalCmp x y with | .gt => y | _ => x⟩ := by
  unfold Field.mergeWith
  rw [if_pos rfl]
  cases lexicalCmp x y <;> rfl

/-- C2 counterexample: with identical timestamps and a NaN float on one
side, the merge result depends on which field is existing and which is
incoming, so the claimed side-independence fails. -/
theorem c2_counterexample :
    Field.mergeWith ⟨0, .float .nan⟩ ⟨0, .float (.fin 0)⟩ 0 ≠
      Field.mergeWith ⟨0, .float (.fin 0)⟩ ⟨0, .float .nan⟩ 0 := by decide

/-- C2 amended: for two fields with identical timestamps whose values are
free of NaN floats, the merge result is independent of which field is
existing and which is incoming, the resulting value is one of the two
operands (the one the lexical comparison selects), and booleans resolve
true-dominates-false regardless of side. -/
theorem c2_equal_timestamp_symmetric (t now : Rat) (x y : Value)
    (hx : x.hasNaN = false) (hy : y.hasNaN = false) :
    Field.mergeWith ⟨t, x⟩ ⟨t, y⟩ now = Field.mergeWith ⟨t, y⟩ ⟨t, x⟩ now ∧
    (∃ r, Field.mergeWith ⟨t, x⟩ ⟨t, y⟩ now = some ⟨t, r⟩ ∧ (r = x ∨ r = y)) ∧
    (∀ a b : Bool, Field.mergeWith ⟨t, .bool a⟩ ⟨t, .bool b⟩ now = some ⟨t, .bool (a || b)⟩) := by
  refine ⟨?_, ?_, ?_⟩
  · rw [mergeWith_eq_ts, mergeWith_eq_ts]
    have hs := lexicalCmp_swap x y hx hy
    cases hcc : lexicalCmp x y
    · rw [hcc] at hs
      simp [hcc, hs, Ordering.swap]
    · have hxy := lexicalCmp_eq_imp x y hx hy hcc
      subst hxy
      rw [hcc]
    · rw [hcc] at hs
      simp [hcc, hs, Ordering.swap]
  · rw [mergeWith_eq_ts]
    cases hcc : lexicalCmp x y
    · exact ⟨x, by simp [hcc], Or.inl rfl⟩
    · exact ⟨x, by simp [hcc], Or.inl rfl⟩
    · exact ⟨y, by simp [hcc], Or.inr rfl⟩
  · intro a b
    rw [mergeWith_eq_ts]
    cases a <;> cases b <;> rfl

/-- Witness for C2 amended: equal-timestamp merges of Integer 1 and
Integer 2 agree in both directions. -/
theorem c2_equal_timestamp_symmetric_witness :
    Field.mergeWith ⟨0, .int 1⟩ ⟨0, .int 2⟩ 0 = Field.mergeWith ⟨0, .int 2⟩ ⟨0, .int 1⟩ 0 :=
  (c2_equal_timestamp_symmetric 0 0 (.int 1) (.int 2) (by decide) (by decide)).1

/-- C5: evaluation at a failing input: an incoming field strictly newer than
the existing one but within the 600-second grace window drives
`Field::merge_with` into `unimplemented!` (modelled as `none`), so the merge
panics instead of terminating normally with a deferred or interim policy. -/
theorem c5_near_future_panics :
    Field.mergeWith ⟨0, .int 0⟩ ⟨5, .int 1⟩ 1 = Option.none := by
  unfold Field.mergeWith
  norm_num [FUTURE_UPDATE_THREASHOLD]

/-- C9: evaluation showing the two `Field::merge_with` implementations are
not equivalent: for an incoming field newer than the existing one and not
later than `now`, `crdt.rs` adopts the incoming field wholesale while
`graph.rs` falls into its final `unreachable!` (modelled as `none`) and
panics, contradicting its own unreachability assertion. -/
theorem c9_graph_merge_diverges :
    Field.mergeWith ⟨0, .int 0⟩ ⟨1, .int 1⟩ 2 = some ⟨1, .int 1⟩ ∧
    Field.mergeWithGraph ⟨0, .int 0⟩ ⟨1, .int 1⟩ 2 = Option.none := by decide

theorem alookup_cons [DecidableEq κ] (k k0 : κ) (v0 : α) (rest : List (κ × α)) :
    alookup k ((k0, v0) :: rest) = if k0 = k then some v0 else alookup k rest := rfl

theorem alookup_aupdate_self [DecidableEq κ] (k : κ) (v : α) :
    ∀ l : List (κ × α), (alookup k l).isSome → alookup k (aupdate k v l) = some v
  | [], h => by simp [alookup] at h
  | (k0, v0) :: rest, h => by
    by_cases hk : k0 = k
    · simp [aupdate, alookup, hk]
    · simp only [alookup, aupdate, if_neg hk] at h ⊢
      exact alookup_aupdate_self k v rest h

theorem alookup_aupdate_ne [DecidableEq κ] {k k2 : κ} (hne : k2 ≠ k) (v : α) :
    ∀ l : List (κ × α), alookup k2 (aupdate k v l) = alookup k2 l
  | [] => rfl
  | (k0, v0) :: rest => by
    by_cases hk : k0 = k
    · subst hk
      have hk2 : k0 ≠ k2 := fun h => hne (h.symm.trans rfl) |>.elim
      simp [aupdate, alookup, hk2]
    · by_cases hk2 : k0 = k2 <;>
        simp [aupdate, alookup, hk, hk2, hne, alookup_aupdate_ne hne v rest]

theorem alookup_append_self [DecidableEq κ] (k : κ) (v : α) :
    ∀ l : List (κ × α), alookup k l = Option.none → alookup k (l ++ [(k, v)]) = some v
  | [], _ => by simp [alookup]
  | (k0, v0) :: rest, h => by
    by_cases hk : k0 = k
    · simp [alookup, hk] at h
    · simp only [alookup, if_neg hk, List.cons_append] at h ⊢
      exact alookup_append_self k v rest h

theorem alookup_append_ne [DecidableEq κ] {k k2 : κ} (hne : k2 ≠ k) (v : α) :
    ∀ l : List (κ × α), alookup k2 (l ++ [(k, v)]) = alookup k2 l
  | [] => by
    have hk : k ≠ k2 := fun h => hne h.symm
    simp [alookup, hk]
  | (k0, v0) :: rest => by
    by_cases hk : k0 = k2 <;>
      simp [alookup, hk, alookup_append_ne hne v rest]

theorem alookup_eq_none [DecidableEq κ] {k : κ} :
    ∀ {l : List (κ × α)}, k ∉ l.map Prod.fst → alookup k l = Option.none
  | [], _ => rfl
  | (k0, v0) :: rest, h => by
    have h1 : k0 ≠ k := by
      rintro rfl
      exact h (List.mem_cons_self _ _)
    have h2 : k ∉ rest.map Prod.fst := fun hm => h (List.mem_cons_of_mem _ hm)
    simp [alookup, h1, alookup_eq_none h2]

theorem alookup_aput_self [DecidableEq κ] (k : κ) (v : α) (l : List (κ × α)) :
    alookup k (aput k v l) = some v := by
  unfold aput
  by_cases h : (alookup k l).isSome
  · rw [if_pos h]
    exact alookup_aupdate_self k v l h
  · rw [if_neg h]
    exact alookup_append_self k v l (Option.not_isSome_iff_eq_none.mp h)

theorem aput_length [DecidableEq κ] (k : κ) (v : α) (l : List (κ × α))
    (h : alookup k l = Option.none) : (aput k v l).length = l.length + 1 := by
  unfold aput
  rw [h]
  simp

/-- Per-key behavior of the `merge_into` loop: keys absent from the incoming
map are untouched, keys only in the incoming map are inserted as given, and
keys in both are resolved by the field merge. -/
theorem mergeFields_spec (now : Rat) :
    ∀ (inc target res : List (Str × Field)),
      keysNodup inc →
      mergeFields now inc target = some res →
      (∀ k, alookup k inc = Option.none → alookup k res = alookup k target) ∧
      (∀ k iv, alookup k inc = some iv →
        (alookup k target = Option.none → alookup k res = some iv) ∧
        (∀ tv, alookup k target = some tv →
          ∃ m, tv.mergeWith iv now = some m ∧ alookup k res = some m))
  | [], target, res, _, h => by
    simp only [mergeFields, Option.some.injEq] at h
    subst h
    refine ⟨fun k _ => rfl, fun k iv hk => ?_⟩
    simp [alookup] at hk
  | (k0, v0) :: rest, target, res, hnd, h => by
    have hnd' : k0 ∉ rest.map Prod.fst ∧ keysNodup rest := by
      have := hnd
      unfold keysNodup at this
      rw [List.map_cons, List.nodup_cons] at this
      exact this
    have hrest0 : alookup k0 rest = Option.none := alookup_eq_none hnd'.1
    simp only [mergeFields] at h
    cases htv : alookup k0 target with
    | some tv =>
      simp only [htv] at h
      cases hm : Field.mergeWith tv v0 now with
      | none =>
        simp only [hm] at h
        cases h
      | some merged =>
        simp only [hm] at h
        obtain ⟨ha, hb⟩ :=
          mergeFields_spec now rest (aupdate k0 merged target) res hnd'.2 h
        constructor
        · intro k hk
          rw [alookup_cons] at hk
          by_cases hkk : k0 = k
          · rw [if_pos hkk] at hk
            cases hk
          · rw [if_neg hkk] at hk
            rw [ha k hk, alookup_aupdate_ne (fun he => hkk he.symm) merged target]
        · intro k iv hk
          rw [alookup_cons] at hk
          by_cases hkk : k0 = k
          · subst hkk
            rw [if_pos rfl, Option.some.injEq] at hk
            subst hk
            refine ⟨fun htn => ?_, fun tv2 htv2 => ?_⟩
            · rw [htn] at htv
              cases htv
            · rw [htv] at htv2
              injection htv2 with htv2
              subst htv2
              refine ⟨merged, hm, ?_⟩
              rw [ha k0 hrest0]
              exact alookup_aupdate_self k0 merged target (by rw [htv]; rfl)
          · rw [if_neg hkk] at hk
            have htr := alookup_aupdate_ne (fun he => hkk he.symm) merged target
            obtain ⟨hb1, hb2⟩ := hb k iv hk
            refine ⟨fun htn => hb1 (by rw [htr, htn]), fun tv2 htv2 => ?_⟩
            exact hb2 tv2 (by rw [htr, htv2])
    | none =>
      simp only [htv] at h
      obtain ⟨ha, hb⟩ :=
        mergeFields_spec now rest (target ++ [(k0, v0)]) res hnd'.2 h
      constructor
      · intro k hk
        rw [alookup_cons] at hk
        by_cases hkk : k0 = k
        · rw [if_pos hkk] at hk
          cases hk
        · rw [if_neg hkk] at hk
          rw [ha k hk, alookup_append_ne (fun he => hkk he.symm) v0 target]
      · intro k iv hk
        rw [alookup_cons] at hk
        by_cases hkk : k0 = k
        · subst hkk
          rw [if_pos rfl, Option.some.injEq] at hk
          subst hk
          refine ⟨fun _ => ?_, fun tv2 htv2 => ?_⟩
          · rw [ha k0 hrest0]
            exact alookup_append_self k0 v0 target htv
          · rw [htv] at htv2
            cases htv2
        · rw [if_neg hkk] at hk
          have htr := alookup_append_ne (fun he => hkk he.symm) v0 target
          obtain ⟨hb1, hb2⟩ := hb k iv hk
          refine ⟨fun htn => hb1 (by rw [htr, htn]), fun tv2 htv2 => ?_⟩
          exact hb2 tv2 (by rw [htr, htv2])

/-- C6: node merge is additive with respect to field presence: when
`merge_into` completes, every field name present in the target before the
merge is still present after it, a field name present only in the incoming
node is inserted directly, and names present in both are resolved by the
field merge of section 4.2. -/
theorem c6_node_merge_additive (inc tgt res : Node) (now : Rat)
    (hnd : keysNodup inc.fields)
    (h : inc.mergeInto tgt now = some res) :
    (∀ k, (alookup k tgt.fields).isSome → (alookup k res.fields).isSome) ∧
    (∀ k iv, alookup k tgt.fields = Option.none → alookup k inc.fields = some iv →
      alookup k res.fields = some iv) ∧
    (∀ k tv iv, alookup k tgt.fields = some tv → alookup k inc.fields = some iv →
      ∃ m, tv.mergeWith iv now = some m ∧ alookup k res.fields = some m) := by
  unfold Node.mergeInto at h
  cases hmf : mergeFields now inc.fields tgt.fields with
  | none =>
    rw [hmf] at h
    cases h
  | some fs =>
    rw [hmf] at h
    injection h with h
    subst h
    obtain ⟨ha, hb⟩ := mergeFields_spec now inc.fields tgt.fields fs hnd hmf
    refine ⟨fun k hk => ?_, fun k iv htn hin => (hb k iv hin).1 htn,
      fun k tv iv htv hin => (hb k iv hin).2 tv htv⟩
    cases hin : alookup k inc.fields with
    | none =>
      rw [ha k hin]
      exact hk
    | some iv =>
      cases htv : alookup k tgt.fields with
      | none =>
        rw [htv] at hk
        cases hk
      | some tv =>
        obtain ⟨m, _, hres⟩ := (hb k iv hin).2 tv htv
        rw [hres]
        rfl

/-- Witness for C6: the section 8 scenario, target `{name@10=Alice}` merged
with incoming `{name@20=Bob, age@5=30}` at now = 100. -/
theorem c6_node_merge_additive_witness :
    (alookup ['n'] (Node.mk 1 [(['n'], ⟨10, .string ['A']⟩)]).fields).isSome = true ∧
    alookup ['a']
        [(['n'], (⟨20, .string ['B']⟩ : Field)), (['a'], ⟨5, .int 30⟩)] = some ⟨5, .int 30⟩ ∧
    Node.mergeInto ⟨2, [(['n'], ⟨20, .string ['B']⟩), (['a'], ⟨5, .int 30⟩)]⟩
        ⟨1, [(['n'], ⟨10, .string ['A']⟩)]⟩ 100 =
      some ⟨1, [(['n'], ⟨20, .string ['B']⟩), (['a'], ⟨5, .int 30⟩)]⟩ ∧
    alookup ['a']
        (Node.mk 1 [(['n'], (⟨20, .string ['B']⟩ : Field)), (['a'], ⟨5, .int 30⟩)]).fields =
      some ⟨5, .int 30⟩ := by
  refine ⟨by decide, by decide, by decide, ?_⟩
  exact
    (c6_node_merge_additive ⟨2, [(['n'], ⟨20, .string ['B']⟩), (['a'], ⟨5, .int 30⟩)]⟩
          ⟨1, [(['n'], ⟨10, .string ['A']⟩)]⟩
          ⟨1, [(['n'], ⟨20, .string ['B']⟩), (['a'], ⟨5, .int 30⟩)]⟩ 100
          (by decide) (by decide)).2.1
      ['a'] ⟨5, .int 30⟩ (by decide) (by decide)

/-- C7: on an empty store, `get` on any string key returns a node with no
fields whose id is the freshly generated one; by the time `get` returns the
empty node is persisted under that id in the node table, while the name
table still has no entry for the key. -/
theorem c7_get_missing_key (key : Str) (fresh : Nat) :
    (rodGet emptyStore key fresh).1 = newNode fresh ∧
    (rodGet emptyStore key fresh).1.fields = [] ∧
    alookup fresh (rodGet emptyStore key fresh).2.nodes = some (newNode fresh) ∧
    alookup key (rodGet emptyStore key fresh).2.names = Option.none := by
  refine ⟨rfl, rfl, ?_, rfl⟩
  show alookup fresh (aput fresh (newNode fresh) []) = some (newNode fresh)
  exact alookup_aput_self fresh (newNode fresh) []

/-- In every branch, `follow` returns a handle built by `NodeProxy::new`, so
the final store is the initial one with the returned node put. -/
theorem followValue_snd (st : StoreState) (v : Value) (fresh : Nat) :
    (followValue st v fresh).2 = putNode (followValue st v fresh).1 st := by
  unfold followValue
  split
  · split <;> rfl
  · rfl

/-- In every branch, `Rod::get` returns a handle built by `NodeProxy::new`,
so the final store is the initial one with the returned node put. -/
theorem rodGet_snd (st : StoreState) (key : Str) (fresh : Nat) :
    (rodGet st key fresh).2 = putNode (rodGet st key fresh).1 st := by
  unfold rodGet
  split
  · rfl
  · split <;> rfl

/-- C10: every construction of a navigation handle writes its node to the
store: `NodeProxy::new` persists the wrapped node before returning, `Rod::get`
re-persists the node it returns, and `ValueRef::follow` on a value that is
not a node reference, or whose referenced target is not found, persists a
freshly generated empty node under the fresh id; when that id is new, the
stored node table grows by one entry on this read path. -/
theorem c10_handles_persist :
    (∀ (st : StoreState) (n : Node),
      (nodeProxyNew st n).1 = n ∧
      alookup n.id (nodeProxyNew st n).2.nodes = some n) ∧
    (∀ (st : StoreState) (key : Str) (fresh : Nat),
      alookup (rodGet st key fresh).1.id (rodGet st key fresh).2.nodes =
        some (rodGet st key fresh).1) ∧
    (∀ (st : StoreState) (v : Value) (fresh : Nat), v.isNodeRef = false →
      (followValue st v fresh).1 = newNode fresh ∧
      alookup fresh (followValue st v fresh).2.nodes = some (newNode fresh)) ∧
    (∀ (st : StoreState) (refId fresh : Nat), alookup refId st.nodes = Option.none →
      (followValue st (.node refId) fresh).1 = newNode fresh ∧
      alookup fresh (followValue st (.node refId) fresh).2.nodes = some (newNode fresh)) ∧
    (∀ (st : StoreState) (v : Value) (fresh : Nat),
      alookup fresh st.nodes = Option.none →
      (followValue st v fresh).1 = newNode fresh →
      (followValue st v fresh).2.nodes.length = st.nodes.length + 1) := by
  have hproxy : ∀ (st : StoreState) (n : Node),
      alookup n.id (nodeProxyNew st n).2.nodes = some n := fun st n =>
    alookup_aput_self n.id n st.nodes
  refine ⟨fun st n => ⟨rfl, hproxy st n⟩, fun st key fresh => ?_, fun st v fresh hv => ?_,
    fun st refId fresh hmiss => ?_, fun st v fresh hfresh hres => ?_⟩
  · rw [rodGet_snd st key fresh]
    exact alookup_aput_self _ _ _
  · cases v <;> simp [Value.isNodeRef] at hv <;>
      exact ⟨rfl, hproxy st (newNode fresh)⟩
  · have hm : getNode refId st = Option.none := hmiss
    refine ⟨?_, ?_⟩ <;> simp only [followValue, hm]
    · rfl
    · exact hproxy st (newNode fresh)
  · rw [followValue_snd st v fresh, hres]
    show (aput (newNode fresh).id (newNode fresh) st.nodes).length = st.nodes.length + 1
    exact aput_length fresh (newNode fresh) st.nodes hfresh

/-- Witness for C10: the hypothesis-bearing conjuncts evaluated on the empty
store with a non-reference value, a dangling reference, and a fresh id. -/
theorem c10_handles_persist_witness :
    ((followValue emptyStore (.int 7) 3).1 = newNode 3 ∧
      alookup 3 (followValue emptyStore (.int 7) 3).2.nodes = some (newNode 3)) ∧
    ((followValue emptyStore (.node 9) 3).1 = newNode 3 ∧
      alookup 3 (followValue emptyStore (.node 9) 3).2.nodes = some (newNode 3)) ∧
    (followValue emptyStore (.int 7) 3).2.nodes.length = emptyStore.nodes.length + 1 :=
  ⟨c10_handles_persist.2.2.1 emptyStore (.int 7) 3 (by decide),
   c10_handles_persist.2.2.2.1 emptyStore 9 3 (by decide),
   c10_handles_persist.2.2.2.2 emptyStore (.int 7) 3 (by decide) (by decide)⟩

/-- Stripping the marker inverts prefixing it. -/
theorem stripBase64Marker_append (cs : Str) :
    stripBase64Marker (base64Marker ++ cs) = some cs := rfl

end Rod
